import Mathlib

/-!
# Verification of the vIR-OLO annotation engine

Shallow embedding of the annotation-state engine of the vIR-OLO
interactive annotation tool (Python sources under `src/`), together with
theorems settling the behavioural claims about it.

Conventions of the embedding:
* Python `int` is modelled as `Int` (unbounded in Python).
* Python `float` arithmetic on annotation values is modelled as exact
  arithmetic on `ℚ`; the 6-decimal fixed formatting `f"{v:.6f}"` is
  modelled as rounding to the nearest multiple of `10⁻⁶` (`round6`).
* Python `int(q)` (truncation toward zero) is `pyTrunc`.
* Files are modelled at the granularity each operation observes them:
  the label-delete rewriter works on a list of raw text lines
  (`List String`), the annotation codec on a list of parsed records.
* `uuid.uuid4()` box ids are modelled as caller-supplied `Nat` fresh ids.
-/

namespace VirOlo

/-- Python `int(q)`: truncation toward zero. -/
def pyTrunc (q : ℚ) : Int :=
  if q < 0 then ⌈q⌉ else ⌊q⌋

/-- The effect of formatting a value with `f"{v:.6f}"` and parsing it back:
rounding to the nearest multiple of `10⁻⁶`. -/
def round6 (q : ℚ) : ℚ :=
  (round (q * 1000000) : ℤ) / 1000000

/-- Box entity `BoundingBox` (src/src/ui/bounding_box.py, `BoundingBox.__init__`):
coordinates of the top-left corner, size and label index in canonical
image-pixel space.  `box_id` models the generated uuid string; `status`
is the selection flag.  The constructor performs no validation. -/
structure BoundingBox where
  x : Int
  y : Int
  width : Int
  height : Int
  label_id : Int
  box_id : Nat := 0
  status : Bool := false
deriving Repr, DecidableEq

/-- One parsed line of a persisted annotation file as the codec sees it:
`label_id  x_center  y_center  width  height` (the four geometry fields
normalized to `[0,1]` and written with 6 decimals). -/
structure YoloRec where
  label_id : Int
  x_center : ℚ
  y_center : ℚ
  norm_width : ℚ
  norm_height : ℚ
deriving Repr, DecidableEq

/-- Import step `BoxManager.add_box_from_yolo` (src/src/ui/box_manager.py lines 89-124):
denormalize a YOLO record into absolute pixel coordinates and build the
box, truncating each coordinate with Python `int()`. -/
def add_box_from_yolo (label_id : Int) (x_center y_center norm_width norm_height : ℚ)
    (img_width img_height : Int) (freshId : Nat := 0) : BoundingBox :=
  let abs_width := norm_width * (img_width : ℚ)
  let abs_height := norm_height * (img_height : ℚ)
  let abs_x := x_center * (img_width : ℚ) - abs_width / 2
  let abs_y := y_center * (img_height : ℚ) - abs_height / 2
  { x := pyTrunc abs_x
    y := pyTrunc abs_y
    width := pyTrunc abs_width
    height := pyTrunc abs_height
    label_id := label_id
    box_id := freshId }

/-- The per-box serialization step of `App.save_current_annotations`
(src/src/spectrai.py lines 797-808): normalized center/size, each written
with 6 decimal places (modelled by `round6`). -/
def saveBox (img_width img_height : Int) (b : BoundingBox) : YoloRec :=
  { label_id := b.label_id
    x_center := round6 (((b.x : ℚ) + (b.width : ℚ) / 2) / (img_width : ℚ))
    y_center := round6 (((b.y : ℚ) + (b.height : ℚ) / 2) / (img_height : ℚ))
    norm_width := round6 ((b.width : ℚ) / (img_width : ℚ))
    norm_height := round6 ((b.height : ℚ) / (img_height : ℚ)) }

/-- The denormalization step of `App.load_annotations_for_current_image`
(src/src/spectrai.py lines 848-879): each parsed record is handed to
`BoxManager.add_box_from_yolo`. -/
def loadBox (img_width img_height : Int) (r : YoloRec) (freshId : Nat := 0) : BoundingBox :=
  add_box_from_yolo r.label_id r.x_center r.y_center r.norm_width r.norm_height
    img_width img_height freshId

/-- Save operation `App.save_current_annotations` (src/src/spectrai.py lines 753-811) as a
file-content transformer: `existing` is the current content of the target
annotation file (`none` = absent), the result is its content after the
call.  The guard `img_width <= 0 or img_height <= 0` returns before any
write; otherwise the file is opened with mode `'w'` and one line per box
is written — the `if not boxes` skip guard present in the docstring is
commented out in the code, so an empty collection writes an empty file. -/
def save_current_annotations (boxes : List BoundingBox) (img_width img_height : Int)
    (existing : Option (List YoloRec)) : Option (List YoloRec) :=
  if img_width ≤ 0 ∨ img_height ≤ 0 then existing
  else some (boxes.map (saveBox img_width img_height))

end VirOlo

namespace VirOlo

/-- Coordinate-transform state of `ImageManager`
(src/src/tools/image_loader.py): original image size, display scale
factors and centering offsets. -/
structure Transform where
  original_width : Int
  original_height : Int
  scale_x : ℚ
  scale_y : ℚ
  offset_x : Int
  offset_y : Int
deriving Repr, DecidableEq

/-- Conversion `ImageManager.screen_to_image_coords` (src/src/tools/image_loader.py
lines 146-173): subtract the offsets, return `None` when either relative
coordinate is negative, otherwise divide by the scale factor (guarding a
non-positive scale with `0`), truncate with `int()` and clamp into
`[0, dim-1]`. -/
def screen_to_image_coords (t : Transform) (screen_x screen_y : Int) :
    Option (Int × Int) :=
  let relative_x := screen_x - t.offset_x
  let relative_y := screen_y - t.offset_y
  if relative_x < 0 ∨ relative_y < 0 then none
  else
    let image_x := if 0 < t.scale_x then pyTrunc ((relative_x : ℚ) / t.scale_x) else 0
    let image_y := if 0 < t.scale_y then pyTrunc ((relative_y : ℚ) / t.scale_y) else 0
    some (max 0 (min image_x (t.original_width - 1)),
          max 0 (min image_y (t.original_height - 1)))

/-- Conversion `ImageManager.image_to_screen_coords` (src/src/tools/image_loader.py
lines 175-194): multiply by the scale, truncate, add the offset. -/
def image_to_screen_coords (t : Transform) (image_x image_y : Int) : Int × Int :=
  (pyTrunc ((image_x : ℚ) * t.scale_x) + t.offset_x,
   pyTrunc ((image_y : ℚ) * t.scale_y) + t.offset_y)

/-- The session-wide interaction mode stored in `config["MODE"]`. -/
inductive Mode where
  | BOX
  | ERASE
  | UPDATE
deriving Repr, DecidableEq

/-- The mutable state of `CanvasWidget` that the press handler touches:
the box collection (insertion order), the two-click drawing flag, the
screen-space anchor of the first click, and the current selection. -/
structure CanvasState where
  boxes : List BoundingBox
  is_box_started : Bool
  anchor_x : Int
  anchor_y : Int
  selected_box_id : Option Nat
deriving Repr, DecidableEq

/-- Gate `CanvasWidget.is_mouse_in_image` (src/src/ui/canvas_widget.py lines
234-281): inclusive containment in the displayed image rectangle
`[offset, offset + int(dim*scale)]` on both axes. -/
def is_mouse_in_image (t : Transform) (x y : Int) : Bool :=
  let img_left := t.offset_x
  let img_top := t.offset_y
  let img_right := img_left + pyTrunc ((t.original_width : ℚ) * t.scale_x)
  let img_bottom := img_top + pyTrunc ((t.original_height : ℚ) * t.scale_y)
  decide (img_left ≤ x ∧ x ≤ img_right ∧ img_top ≤ y ∧ y ≤ img_bottom)

/-- Wrapper `CanvasWidget.screen_to_image_coords` (src/src/ui/canvas_widget.py
lines 283-341): delegate to the `ImageManager` conversion, then reject a
result outside `[0, original_width) × [0, original_height)`. -/
def canvas_screen_to_image_coords (t : Transform) (screen_x screen_y : Int) :
    Option (Int × Int) :=
  match screen_to_image_coords t screen_x screen_y with
  | none => none
  | some (img_x, img_y) =>
      if img_x < 0 ∨ img_y < 0 ∨ t.original_width ≤ img_x ∨ t.original_height ≤ img_y
      then none
      else some (img_x, img_y)

/-- Hit test `CanvasWidget._get_box_at_position` (src/src/ui/canvas_widget.py lines
765-822): iterate the collection from most-recently-added to
least-recently-added and return the first box whose screen-space
rectangle (corners converted via `image_to_screen_coords`, inclusive
bounds) contains the point. -/
def get_box_at_position (t : Transform) (boxes : List BoundingBox) (x y : Int) :
    Option BoundingBox :=
  boxes.reverse.find? fun box =>
    let p₁ := image_to_screen_coords t box.x box.y
    let p₂ := image_to_screen_coords t (box.x + box.width) (box.y + box.height)
    decide (p₁.1 ≤ x ∧ x ≤ p₂.1 ∧ p₁.2 ≤ y ∧ y ≤ p₂.2)

/-- The second-click finalization of `CanvasWidget.mousePressEvent`
(src/src/ui/canvas_widget.py lines 501-524), after both clicks have been
converted to image coordinates: normalize so `(x, y)` is the minimum
corner, take absolute differences as the size, and create the box only
when `width > 5 and height > 5`. -/
def finalize_box (label_id : Int) (x1 y1 x2 y2 : Int) (freshId : Nat := 0) :
    Option BoundingBox :=
  let x := min x1 x2
  let y := min y1 y2
  let width := |x2 - x1|
  let height := |y2 - y1|
  if 5 < width ∧ 5 < height then
    some { x := x, y := y, width := width, height := height,
           label_id := label_id, box_id := freshId }
  else none

/-- Press handler `CanvasWidget.mousePressEvent` (src/src/ui/canvas_widget.py lines
389-526) for a left-button press at screen position `(px, py)`.  The
handler first consults `config["MODE"]`: any mode other than `"BOX"`
only cancels an in-progress preview and returns (lines 454-459).  In
`BOX` mode a press outside the image is ignored; a first click selects a
hit box or records the anchor; a second click finalizes via the
two-click geometry. -/
def mousePressEvent (mode : Mode) (t : Transform) (st : CanvasState)
    (px py : Int) (current_label_id : Int) (freshId : Nat) : CanvasState :=
  match mode with
  | Mode.ERASE | Mode.UPDATE =>
      if st.is_box_started then { st with is_box_started := false } else st
  | Mode.BOX =>
    if ¬ is_mouse_in_image t px py then st
    else if ¬ st.is_box_started then
      match get_box_at_position t st.boxes px py with
      | some clicked =>
          { st with
            boxes := st.boxes.map fun b => { b with status := b.box_id = clicked.box_id }
            selected_box_id := some clicked.box_id }
      | none =>
          { st with
            is_box_started := true
            anchor_x := px
            anchor_y := py
            boxes := st.boxes.map fun b => { b with status := false }
            selected_box_id := none }
    else
      let st' := { st with is_box_started := false }
      match canvas_screen_to_image_coords t st.anchor_x st.anchor_y,
            canvas_screen_to_image_coords t px py with
      | some (x1, y1), some (x2, y2) =>
          match finalize_box current_label_id x1 y1 x2 y2 freshId with
          | some box => { st' with boxes := st'.boxes ++ [box] }
          | none => st'
      | _, _ => st'

/-! ## Text-level model of the annotation-file rewriter

`App.update_single_annotation_file` manipulates raw text lines with
Python's `str.strip`, `str.split`, `int(...)`, `str(...)` and
`"\t".join(...)`; these are modelled character-exactly below. -/

/-- Python `str.strip()`: drop leading and trailing whitespace. -/
def pyStrip (s : String) : String :=
  String.mk (((s.data.dropWhile Char.isWhitespace).reverse.dropWhile
    Char.isWhitespace).reverse)

/-- Helper for `str.split()`: split a character list on runs of
whitespace, producing the maximal whitespace-free words in order.  `acc`
holds the characters of the word currently being read, in reverse. -/
def wsSplitAux : List Char → List Char → List (List Char)
  | [], acc => if acc = [] then [] else [acc.reverse]
  | c :: cs, acc =>
    if c.isWhitespace then
      if acc = [] then wsSplitAux cs [] else acc.reverse :: wsSplitAux cs []
    else wsSplitAux cs (c :: acc)

/-- Split a character list on runs of whitespace. -/
def wsSplit (cs : List Char) : List (List Char) :=
  wsSplitAux cs []

/-- Python `str.split()` with no separator argument. -/
def pySplit (s : String) : List String :=
  (wsSplit s.data).map String.mk

/-- Numeric value of a decimal digit character, `none` otherwise. -/
def digitVal (c : Char) : Option Nat :=
  if '0' ≤ c ∧ c ≤ '9' then some (c.toNat - 48) else none

/-- Accumulating decimal reader: fails on any non-digit. -/
def digitsToNatAux : List Char → Nat → Option Nat
  | [], acc => some acc
  | c :: cs, acc =>
    match digitVal c with
    | some d => digitsToNatAux cs (acc * 10 + d)
    | none => none

/-- Read a non-empty all-digit character list as a natural number. -/
def digitsToNat (cs : List Char) : Option Nat :=
  match cs with
  | [] => none
  | _ => digitsToNatAux cs 0

/-- Python `int(s)` restricted to the forms the annotation files contain:
an optional sign followed by decimal digits (the fields handed to it
contain no whitespace, having come from `str.split()`). -/
def pyParseInt (s : String) : Option Int :=
  match s.data with
  | [] => none
  | c :: rest =>
    if c = '-' then
      match digitsToNat rest with
      | some n => some (-(n : Int))
      | none => none
    else if c = '+' then
      match digitsToNat rest with
      | some n => some ((n : Int))
      | none => none
    else
      match digitsToNat (c :: rest) with
      | some n => some ((n : Int))
      | none => none

/-- Big-endian decimal digits of a natural number. -/
def natToDigits (n : Nat) : List Char :=
  if n < 10 then [Nat.digitChar n]
  else natToDigits (n / 10) ++ [Nat.digitChar (n % 10)]
termination_by n
decreasing_by exact Nat.div_lt_self (by omega) (by omega)

/-- Python `str(i)` for an integer. -/
def pyIntStr (i : Int) : String :=
  match i with
  | Int.ofNat n => String.mk (natToDigits n)
  | Int.negSucc m => String.mk ('-' :: natToDigits (m + 1))

/-- Characters of `"\t".join(words)`: the words separated by single
tab characters. -/
def joinTabChars : List (List Char) → List Char
  | [] => []
  | [w] => w
  | w :: ws => w ++ '\t' :: joinTabChars ws

/-- Python `"\t".join(parts)`. -/
def tabJoin (parts : List String) : String :=
  String.mk (joinTabChars (parts.map String.data))

/-- The per-line step of `App.update_single_annotation_file`
(src/src/spectrai.py lines 521-549): strip the line; drop it silently if
empty; if it has at least five fields and an integer first field, drop
it when the label equals `deleted_idx` (counting it removed), rewrite
the label to `label - 1` and tab-join when it is greater (counting it
shifted), tab-join unchanged when smaller; keep any other line as its
stripped text.  Result: the written-back line (`none` = dropped) and the
`(removed, shifted)` contribution. -/
def update_line (deleted_idx : Int) (raw : String) : Option String × Nat × Nat :=
  let line := pyStrip raw
  if line = "" then (none, 0, 0)
  else
    let parts := pySplit line
    if 5 ≤ parts.length then
      match pyParseInt parts.headI with
      | some label_id =>
        if label_id = deleted_idx then (none, 1, 0)
        else if deleted_idx < label_id then
          (some (tabJoin (parts.set 0 (pyIntStr (label_id - 1)))), 0, 1)
        else (some (tabJoin parts), 0, 0)
      | none => (some line, 0, 0)
    else (some line, 0, 0)

/-- Rewriter `App.update_single_annotation_file` (src/src/spectrai.py lines
503-559) on the file's list of raw lines: process each line in order
with `update_line`, write back the kept lines, and return the
`(removed, shifted)` counters. -/
def update_single_annotation_file (deleted_idx : Int) (lines : List String) :
    List String × Nat × Nat :=
  match lines with
  | [] => ([], 0, 0)
  | l :: rest =>
    let r := update_line deleted_idx l
    let rec' := update_single_annotation_file deleted_idx rest
    (match r.1 with
     | some t => t :: rec'.1
     | none => rec'.1,
     r.2.1 + rec'.2.1, r.2.2 + rec'.2.2)

/-- Aggregator `App.update_annotations_after_label_delete` (src/src/spectrai.py lines
468-501): rewrite every annotation file in the project and aggregate the
removed/shifted counters over all files. -/
def update_annotations_after_label_delete (deleted_idx : Int)
    (files : List (List String)) : List (List String) × Nat × Nat :=
  match files with
  | [] => ([], 0, 0)
  | f :: rest =>
    let r := update_single_annotation_file deleted_idx f
    let rec' := update_annotations_after_label_delete deleted_idx rest
    (r.1 :: rec'.1, r.2.1 + rec'.2.1, r.2.2 + rec'.2.2)

/-- The application state `App.delete_label` touches: the label registry
`config["LABELS"]`, the active label `config["CURRENT_LABEL"]`, and the
annotation files of the project. -/
structure AppState where
  labels : List String
  current_label : Int
  files : List (List String)
deriving Repr, DecidableEq

/-- Operation `App.delete_label` (src/src/spectrai.py lines 415-466): refuse when
the registry holds at most one label or the index is out of range (both
checks precede any file access); otherwise rewrite every annotation
file, remove the name, and clamp `CURRENT_LABEL` into range. -/
def delete_label (idx : Int) (s : AppState) : AppState :=
  if s.labels.length ≤ 1 then s
  else if idx < 0 ∨ (s.labels.length : Int) ≤ idx then s
  else
    let rewritten := (update_annotations_after_label_delete idx s.files).1
    let labels' := s.labels.eraseIdx idx.toNat
    let current' :=
      if labels'.length = 0 then 0
      else if (labels'.length : Int) ≤ s.current_label then (labels'.length : Int) - 1
      else s.current_label
    { labels := labels', current_label := current', files := rewritten }

/-- Reconciler `PredictorManager.map_indexes` (src/src/models/predict.py lines
56-73): walk the detector's labels in order; an existing project label
maps to its first index (`list.index`), an unseen one is appended to the
project list and maps to the new trailing index.  Returns the mapping
`(detector index, project index, label)` and the mutated project list. -/
def map_indexes (model_labels user_labels : List String) :
    List (Nat × Nat × String) × List String :=
  go 0 model_labels user_labels
where
  go (idx : Nat) : List String → List String → List (Nat × Nat × String) × List String
    | [], users => ([], users)
    | l :: rest, users =>
      if l ∈ users then
        let r := go (idx + 1) rest users
        ((idx, users.indexOf l, l) :: r.1, r.2)
      else
        let r := go (idx + 1) rest (users ++ [l])
        ((idx, users.length, l) :: r.1, r.2)

/-- The label (first field) of a line as the rewriter's parser sees it:
strip the line, split on whitespace, and when there are at least five
fields read the first as an integer; `none` for malformed lines. -/
def parsedLabel (raw : String) : Option Int :=
  let parts := pySplit (pyStrip raw)
  if 5 ≤ parts.length then pyParseInt parts.headI else none

/-! ## Theorems -/

/-- C1: the spec requires `save` with an empty box collection to leave an
existing annotation file byte-for-byte unchanged, and the function's own
docstring states that policy, but the guard implementing it is commented
out (src/src/spectrai.py lines 778-780): with valid image dimensions the
file is opened in write mode and zero lines are written, truncating the
previously saved annotation to an empty file. -/
theorem save_empty_boxes_truncates_existing_file :
    save_current_annotations [] 100 100 (some [⟨0, 0, 0, 1, 1⟩]) = some [] ∧
    some ([] : List YoloRec) ≠ some [⟨0, 0, 0, 1, 1⟩] := by
  constructor
  · simp [save_current_annotations]
  · simp

/-- C2: the spec requires a pointer-down in `ERASE` mode to remove the
hit box from the collection, but `CanvasWidget.mousePressEvent`
(src/src/ui/canvas_widget.py lines 454-459) returns immediately whenever
`config["MODE"]` is not `"BOX"`, only cancelling an in-progress preview:
no press in `ERASE` mode ever changes the box collection, regardless of
the collection state or the click position. -/
theorem erase_press_never_removes_a_box (t : Transform) (st : CanvasState)
    (px py lbl : Int) (fid : Nat) :
    (mousePressEvent Mode.ERASE t st px py lbl fid).boxes = st.boxes := by
  unfold mousePressEvent
  by_cases h : st.is_box_started <;> simp [h]

/-- C5: `App.delete_label` refuses a delete when the registry holds a
single label: the check `len(config["LABELS"]) <= 1` is the first
statement of the function, so the state — registry, `CURRENT_LABEL` and
every annotation file — is returned untouched, before any file access. -/
theorem delete_label_singleton_is_rejected (idx : Int) (s : AppState)
    (h : s.labels.length = 1) : delete_label idx s = s := by
  unfold delete_label
  simp [h]

/-- Witness for C5 at a one-label registry. -/
theorem delete_label_singleton_is_rejected_witness :
    (AppState.mk ["only"] 0 [["0 1 2 3 4"]]).labels.length = 1 ∧
    delete_label 0 (AppState.mk ["only"] 0 [["0 1 2 3 4"]]) =
      AppState.mk ["only"] 0 [["0 1 2 3 4"]] :=
  ⟨by decide, delete_label_singleton_is_rejected 0 _ (by decide)⟩

/-- C9: the second click of the two-click gesture creates a box exactly
when both absolute differences exceed 5 pixels, and the created box has
the minimum corner as `(x, y)` and the absolute differences as its size;
in particular anchor `(50,50)` with finalize point `(20,80)` yields
`{x:20, y:50, width:30, height:30}`, and finalize point `(52,51)`
creates no box. -/
theorem two_click_finalization_geometry :
    (∀ (lbl x1 y1 x2 y2 : Int) (fid : Nat),
      (∃ b, finalize_box lbl x1 y1 x2 y2 fid = some b) ↔
        5 < |x2 - x1| ∧ 5 < |y2 - y1|) ∧
    (∀ (lbl x1 y1 x2 y2 : Int) (fid : Nat) (b : BoundingBox),
      finalize_box lbl x1 y1 x2 y2 fid = some b →
        b.x = min x1 x2 ∧ b.y = min y1 y2 ∧
        b.width = |x2 - x1| ∧ b.height = |y2 - y1| ∧ b.label_id = lbl) ∧
    finalize_box 0 50 50 20 80 = some ⟨20, 50, 30, 30, 0, 0, false⟩ ∧
    finalize_box 0 50 50 52 51 = none := by
  refine ⟨?_, ?_, by decide, by decide⟩
  · intro lbl x1 y1 x2 y2 fid
    unfold finalize_box
    by_cases h : 5 < |x2 - x1| ∧ 5 < |y2 - y1| <;> simp [h]
  · intro lbl x1 y1 x2 y2 fid b hb
    unfold finalize_box at hb
    by_cases h : 5 < |x2 - x1| ∧ 5 < |y2 - y1| <;> simp [h] at hb
    simp [← hb]

/-- Witness for C9's conditional conjunct: the concrete box of the
spec's example satisfies the characterization. -/
theorem two_click_finalization_geometry_witness :
    finalize_box 0 50 50 20 80 = some ⟨20, 50, 30, 30, 0, 0, false⟩ ∧
    ((20 : Int) = min 50 20 ∧ (50 : Int) = min 50 80 ∧
     (30 : Int) = |20 - 50| ∧ (30 : Int) = |80 - 50| ∧ (0 : Int) = 0) :=
  ⟨by decide,
   two_click_finalization_geometry.2.1 0 50 50 20 80 0 ⟨20, 50, 30, 30, 0, 0, false⟩
     (by decide)⟩

/-- Truncation toward zero agrees with the floor on non-negative input. -/
theorem pyTrunc_of_nonneg {q : ℚ} (h : 0 ≤ q) : pyTrunc q = ⌊q⌋ := by
  unfold pyTrunc
  simp [not_lt.mpr h]

/-- C10: `ImageManager.screen_to_image_coords` returns `None` exactly
when subtracting the offsets leaves a negative coordinate on either
axis; otherwise (given the loaded-image invariant of positive scales and
dimensions) each axis is the floor of the offset-free coordinate divided
by its scale factor, clamped into `[0, dim-1]`, so every non-`None`
result lies inside the image bounds. -/
theorem screen_to_image_characterization (t : Transform) (screen_x screen_y : Int)
    (hsx : 0 < t.scale_x) (hsy : 0 < t.scale_y)
    (hw : 1 ≤ t.original_width) (hh : 1 ≤ t.original_height) :
    (screen_to_image_coords t screen_x screen_y = none ↔
      screen_x - t.offset_x < 0 ∨ screen_y - t.offset_y < 0) ∧
    (∀ p, screen_to_image_coords t screen_x screen_y = some p →
      p.1 = max 0 (min ⌊((screen_x - t.offset_x : ℚ)) / t.scale_x⌋ (t.original_width - 1)) ∧
      p.2 = max 0 (min ⌊((screen_y - t.offset_y : ℚ)) / t.scale_y⌋ (t.original_height - 1)) ∧
      0 ≤ p.1 ∧ p.1 < t.original_width ∧ 0 ≤ p.2 ∧ p.2 < t.original_height) := by
  constructor
  · unfold screen_to_image_coords
    by_cases h : screen_x - t.offset_x < 0 ∨ screen_y - t.offset_y < 0
    · rw [if_pos h]
      exact iff_of_true rfl h
    · rw [if_neg h]
      exact iff_of_false (by simp) h
  · intro p hp
    unfold screen_to_image_coords at hp
    by_cases h : screen_x - t.offset_x < 0 ∨ screen_y - t.offset_y < 0
    · rw [if_pos h] at hp
      exact Option.noConfusion hp
    · rw [if_neg h] at hp
      push_neg at h
      rw [if_pos hsx, if_pos hsy, Option.some_inj] at hp
      have hqx : (0 : ℚ) ≤ ((screen_x - t.offset_x : Int) : ℚ) / t.scale_x :=
        div_nonneg (by exact_mod_cast h.1) (le_of_lt hsx)
      have hqy : (0 : ℚ) ≤ ((screen_y - t.offset_y : Int) : ℚ) / t.scale_y :=
        div_nonneg (by exact_mod_cast h.2) (le_of_lt hsy)
      rw [pyTrunc_of_nonneg hqx, pyTrunc_of_nonneg hqy] at hp
      have hx1 : p.1 = max 0 (min ⌊((screen_x - t.offset_x : Int) : ℚ) / t.scale_x⌋
          (t.original_width - 1)) := by rw [← hp]
      have hy1 : p.2 = max 0 (min ⌊((screen_y - t.offset_y : Int) : ℚ) / t.scale_y⌋
          (t.original_height - 1)) := by rw [← hp]
      have castx : ((screen_x - t.offset_x : Int) : ℚ) = (screen_x : ℚ) - t.offset_x := by
        push_cast
        ring
      have casty : ((screen_y - t.offset_y : Int) : ℚ) = (screen_y : ℚ) - t.offset_y := by
        push_cast
        ring
      refine ⟨by rw [hx1, castx], by rw [hy1, casty], ?_, ?_, ?_, ?_⟩
      · rw [hx1]
        exact le_max_left _ _
      · rw [hx1]
        exact max_lt (by omega) (lt_of_le_of_lt (min_le_right _ _) (by omega))
      · rw [hy1]
        exact le_max_left _ _
      · rw [hy1]
        exact max_lt (by omega) (lt_of_le_of_lt (min_le_right _ _) (by omega))

/-- Witness for C10 at the identity transform of a 100×100 image. -/
theorem screen_to_image_characterization_witness :
    ((0 : ℚ) < 1 ∧ (1 : Int) ≤ 100) ∧
    ((screen_to_image_coords ⟨100, 100, 1, 1, 0, 0⟩ 5 7 = none ↔ (5 : Int) - 0 < 0 ∨ (7 : Int) - 0 < 0) ∧
     (∀ p, screen_to_image_coords ⟨100, 100, 1, 1, 0, 0⟩ 5 7 = some p →
       p.1 = max 0 (min ⌊(((5 : Int) - 0 : ℚ)) / 1⌋ (100 - 1)) ∧
       p.2 = max 0 (min ⌊(((7 : Int) - 0 : ℚ)) / 1⌋ (100 - 1)) ∧
       0 ≤ p.1 ∧ p.1 < 100 ∧ 0 ≤ p.2 ∧ p.2 < 100)) :=
  ⟨⟨by norm_num, by norm_num⟩,
   screen_to_image_characterization ⟨100, 100, 1, 1, 0, 0⟩ 5 7
     (by norm_num) (by norm_num) (by norm_num) (by norm_num)⟩

/-- C6 counterexample: `BoxManager.add_box_from_yolo` truncates the
denormalized size with `int()`, so a record whose normalized size times
the image dimension is below one pixel yields a box of width and height
`0` — the collection can hold boxes violating `width > 0 ∧ height > 0`.
Here: `norm_width = norm_height = 1/4` on a 2×2 image gives absolute
size `0.5`, truncated to `0`. -/
theorem yolo_import_can_produce_zero_size_box :
    (add_box_from_yolo 0 (1/2) (1/2) (1/4) (1/4) 2 2).width = 0 ∧
    (add_box_from_yolo 0 (1/2) (1/2) (1/4) (1/4) 2 2).height = 0 := by
  constructor <;>
    · simp only [add_box_from_yolo, pyTrunc]
      norm_num

/-- C6 (amended): two-click finalization only ever creates boxes with
`width > 5` and `height > 5`, hence strictly positive; a normalized
record import yields a strictly positive width and height whenever the
normalized size times the image dimension is at least one pixel on each
axis (below that the `int()` truncation produces zero). -/
theorem created_boxes_have_positive_size :
    (∀ (lbl x1 y1 x2 y2 : Int) (fid : Nat) (b : BoundingBox),
      finalize_box lbl x1 y1 x2 y2 fid = some b → 0 < b.width ∧ 0 < b.height) ∧
    (∀ (lbl : Int) (xc yc nw nh : ℚ) (W H : Int) (fid : Nat),
      1 ≤ nw * (W : ℚ) → 1 ≤ nh * (H : ℚ) →
      0 < (add_box_from_yolo lbl xc yc nw nh W H fid).width ∧
      0 < (add_box_from_yolo lbl xc yc nw nh W H fid).height) := by
  constructor
  · intro lbl x1 y1 x2 y2 fid b hb
    unfold finalize_box at hb
    by_cases h : 5 < |x2 - x1| ∧ 5 < |y2 - y1|
    · rw [if_pos h, Option.some_inj] at hb
      rw [← hb]
      simp only
      exact ⟨by have := h.1; omega, by have := h.2; omega⟩
    · rw [if_neg h] at hb
      exact Option.noConfusion hb
  · intro lbl xc yc nw nh W H fid hW hH
    unfold add_box_from_yolo
    constructor
    · show 0 < pyTrunc (nw * (W : ℚ))
      rw [pyTrunc_of_nonneg (le_trans zero_le_one hW)]
      exact lt_of_lt_of_le zero_lt_one (Int.le_floor.mpr (by exact_mod_cast hW))
    · show 0 < pyTrunc (nh * (H : ℚ))
      rw [pyTrunc_of_nonneg (le_trans zero_le_one hH)]
      exact lt_of_lt_of_le zero_lt_one (Int.le_floor.mpr (by exact_mod_cast hH))

/-- Witness for C6 (amended) at the spec's two-click example box and at
a one-pixel normalized record on a 100×100 image. -/
theorem created_boxes_have_positive_size_witness :
    (finalize_box 0 50 50 20 80 0 = some ⟨20, 50, 30, 30, 0, 0, false⟩ ∧
      (0 : Int) < 30 ∧ (0 : Int) < 30) ∧
    ((1 : ℚ) ≤ (1/100 : ℚ) * ((100 : Int) : ℚ) ∧
      0 < (add_box_from_yolo 0 (1/2) (1/2) (1/100) (1/100) 100 100 0).width ∧
      0 < (add_box_from_yolo 0 (1/2) (1/2) (1/100) (1/100) 100 100 0).height) :=
  ⟨⟨by decide,
    created_boxes_have_positive_size.1 0 50 50 20 80 0 ⟨20, 50, 30, 30, 0, 0, false⟩
      (by decide)⟩,
   by norm_num,
   created_boxes_have_positive_size.2 0 (1/2) (1/2) (1/100) (1/100) 100 100 0
     (by norm_num) (by norm_num)⟩

/-- Invariant of the `map_indexes` loop: the user list only grows by
appending, every produced entry `(detector idx, project idx, name)`
carries its enumeration index, the detector's name at that position, and
a project index at which the final list holds that name; a name already
present maps to its first existing index, an absent one to an index at
or beyond the current end of the list. -/
theorem map_indexes_go_spec (ms : List String) : ∀ (idx : Nat) (us : List String),
    (∃ ext, (map_indexes.go idx ms us).2 = us ++ ext) ∧
    (map_indexes.go idx ms us).1.length = ms.length ∧
    (∀ (k : Nat) (e : Nat × Nat × String), (map_indexes.go idx ms us).1[k]? = some e →
      e.1 = idx + k ∧ ms[k]? = some e.2.2 ∧
      (map_indexes.go idx ms us).2[e.2.1]? = some e.2.2 ∧
      (e.2.2 ∈ us → e.2.1 = us.indexOf e.2.2) ∧
      (e.2.2 ∉ us → us.length ≤ e.2.1)) := by
  induction ms with
  | nil =>
    intro idx us
    refine ⟨⟨[], by simp [map_indexes.go]⟩, by simp [map_indexes.go], ?_⟩
    intro k e he
    simp [map_indexes.go] at he
  | cons l rest ih =>
    intro idx us
    by_cases hmem : l ∈ us
    · have hgo : map_indexes.go idx (l :: rest) us =
          ((idx, us.indexOf l, l) :: (map_indexes.go (idx + 1) rest us).1,
           (map_indexes.go (idx + 1) rest us).2) := by
        simp [map_indexes.go, hmem]
      obtain ⟨⟨ext, hext⟩, hlen, hent⟩ := ih (idx + 1) us
      refine ⟨⟨ext, by rw [hgo]; exact hext⟩, by rw [hgo]; simp [hlen], ?_⟩
      intro k e he
      rw [hgo] at he ⊢
      cases k with
      | zero =>
        rw [List.getElem?_cons_zero, Option.some_inj] at he
        subst he
        refine ⟨by omega, by simp, ?_, fun _ => rfl, fun hn => absurd hmem hn⟩
        have hidx : us.indexOf l < us.length := List.indexOf_lt_length.mpr hmem
        show (map_indexes.go (idx + 1) rest us).2[us.indexOf l]? = some l
        rw [hext, List.getElem?_append_left hidx]
        exact List.getElem?_indexOf hmem
      | succ k' =>
        rw [List.getElem?_cons_succ] at he
        obtain ⟨h1, h2, h3, h4, h5⟩ := hent k' e he
        exact ⟨by omega, by rw [List.getElem?_cons_succ]; exact h2, h3, h4, h5⟩
    · have hgo : map_indexes.go idx (l :: rest) us =
          ((idx, us.length, l) :: (map_indexes.go (idx + 1) rest (us ++ [l])).1,
           (map_indexes.go (idx + 1) rest (us ++ [l])).2) := by
        simp [map_indexes.go, hmem]
      obtain ⟨⟨ext, hext⟩, hlen, hent⟩ := ih (idx + 1) (us ++ [l])
      refine ⟨⟨[l] ++ ext, by rw [hgo]; rw [hext, List.append_assoc]⟩,
        by rw [hgo]; simp [hlen], ?_⟩
      intro k e he
      rw [hgo] at he ⊢
      cases k with
      | zero =>
        rw [List.getElem?_cons_zero, Option.some_inj] at he
        subst he
        refine ⟨by omega, by simp, ?_, ?_, ?_⟩
        · show (map_indexes.go (idx + 1) rest (us ++ [l])).2[us.length]? = some l
          rw [hext, List.append_assoc, List.getElem?_append_right (le_refl us.length)]
          simp
        · intro hin
          exact absurd hin hmem
        · intro _
          exact le_refl _
      | succ k' =>
        rw [List.getElem?_cons_succ] at he
        obtain ⟨h1, h2, h3, h4, h5⟩ := hent k' e he
        refine ⟨by omega, by rw [List.getElem?_cons_succ]; exact h2, h3, ?_, ?_⟩
        · intro hin
          rw [h4 (List.mem_append_left _ hin), List.indexOf_append_of_mem hin]
        · intro hnin
          by_cases hel : e.2.2 = l
          · rw [h4 (by rw [hel]; simp), hel, List.indexOf_append_of_not_mem hmem]
            simp
          · have := h5 (by simp [hel, hnin])
            simp at this
            omega

/-- C8: `PredictorManager.map_indexes` preserves the project labels as a
prefix, produces one mapping entry per detector label carrying its
enumeration index and name, sends every entry to a project index holding
that name in the final list — the first existing index when the name was
already a project label, an index at or past the old end when it was
appended — and on the spec's example (project `["aromatics","esters"]`,
detector `["esters","ketones"]`) yields the mapping `{0: 1, 1: 2}` with
project labels `["aromatics","esters","ketones"]`. -/
theorem index_reconciliation (model_labels user_labels : List String) :
    (∃ ext, (map_indexes model_labels user_labels).2 = user_labels ++ ext) ∧
    (map_indexes model_labels user_labels).1.length = model_labels.length ∧
    (∀ (k : Nat) (e : Nat × Nat × String),
      (map_indexes model_labels user_labels).1[k]? = some e →
      e.1 = k ∧ model_labels[k]? = some e.2.2 ∧
      (map_indexes model_labels user_labels).2[e.2.1]? = some e.2.2 ∧
      (e.2.2 ∈ user_labels → e.2.1 = user_labels.indexOf e.2.2) ∧
      (e.2.2 ∉ user_labels → user_labels.length ≤ e.2.1)) ∧
    map_indexes ["esters", "ketones"] ["aromatics", "esters"] =
      ([(0, 1, "esters"), (1, 2, "ketones")], ["aromatics", "esters", "ketones"]) := by
  obtain ⟨h1, h2, h3⟩ := map_indexes_go_spec model_labels 0 user_labels
  refine ⟨h1, h2, ?_, by decide⟩
  intro k e he
  obtain ⟨g1, g2, g3, g4, g5⟩ := h3 k e he
  exact ⟨by omega, g2, g3, g4, g5⟩

/-- Witness for C8 at the spec's example: the first mapping entry
`(0, 1, "esters")` maps detector index 0 to existing project index 1. -/
theorem index_reconciliation_witness :
    (map_indexes ["esters", "ketones"] ["aromatics", "esters"]).1[0]? =
      some (0, 1, "esters") ∧
    ((0, 1, "esters").1 = 0 ∧ ["esters", "ketones"][0]? = some "esters" ∧
     (map_indexes ["esters", "ketones"] ["aromatics", "esters"]).2[1]? = some "esters" ∧
     ("esters" ∈ ["aromatics", "esters"] →
       (1 : Nat) = ["aromatics", "esters"].indexOf "esters") ∧
     ("esters" ∉ ["aromatics", "esters"] → ["aromatics", "esters"].length ≤ 1)) :=
  ⟨by decide,
   (index_reconciliation ["esters", "ketones"] ["aromatics", "esters"]).2.2.1
     0 (0, 1, "esters") (by decide)⟩

/-! ### Properties of the character-level text utilities -/

/-- Every word produced by the whitespace splitter is non-empty and free
of whitespace characters. -/
theorem wsSplitAux_words (cs : List Char) : ∀ (acc : List Char),
    (∀ c ∈ acc, ¬ c.isWhitespace) →
    ∀ w ∈ wsSplitAux cs acc, w ≠ [] ∧ ∀ c ∈ w, ¬ c.isWhitespace := by
  induction cs with
  | nil =>
    intro acc hacc w hw
    unfold wsSplitAux at hw
    by_cases h : acc = []
    · simp [h] at hw
    · rw [if_neg h] at hw
      simp only [List.mem_singleton] at hw
      subst hw
      refine ⟨by simpa using h, ?_⟩
      intro c hc
      exact hacc c (List.mem_reverse.mp hc)
  | cons c rest ih =>
    intro acc hacc w hw
    unfold wsSplitAux at hw
    by_cases hws : c.isWhitespace
    · rw [if_pos hws] at hw
      by_cases h0 : acc = []
      · rw [if_pos h0] at hw
        exact ih [] (by simp) w hw
      · rw [if_neg h0] at hw
        rcases List.mem_cons.mp hw with hw | hw
        · subst hw
          refine ⟨by simpa using h0, ?_⟩
          intro d hd
          exact hacc d (List.mem_reverse.mp hd)
        · exact ih [] (by simp) w hw
    · rw [if_neg hws] at hw
      refine ih (c :: acc) ?_ w hw
      intro d hd
      rcases List.mem_cons.mp hd with hd | hd
      · subst hd
        exact hws
      · exact hacc d hd

/-- Feeding a whitespace-free word into the splitter accumulates its
characters. -/
theorem wsSplitAux_word_chars (w : List Char) (hw : ∀ c ∈ w, ¬ c.isWhitespace) :
    ∀ (cs acc : List Char), wsSplitAux (w ++ cs) acc = wsSplitAux cs (w.reverse ++ acc) := by
  induction w with
  | nil => intro cs acc; simp
  | cons c w' ih =>
    intro cs acc
    have hc : ¬ c.isWhitespace := hw c (List.mem_cons_self c w')
    have hw' : ∀ d ∈ w', ¬ d.isWhitespace := fun d hd => hw d (List.mem_cons_of_mem c hd)
    calc wsSplitAux ((c :: w') ++ cs) acc
        = wsSplitAux (w' ++ cs) (c :: acc) := by
          show wsSplitAux (c :: (w' ++ cs)) acc = _
          simp only [wsSplitAux]
          rw [if_neg hc]
      _ = wsSplitAux cs (w'.reverse ++ (c :: acc)) := ih hw' cs (c :: acc)
      _ = wsSplitAux cs ((c :: w').reverse ++ acc) := by
          rw [List.reverse_cons, List.append_assoc]
          rfl

/-- Splitting a tab-join of non-empty whitespace-free words recovers
exactly those words. -/
theorem wsSplit_joinTabChars (words : List (List Char))
    (h : ∀ w ∈ words, w ≠ [] ∧ ∀ c ∈ w, ¬ c.isWhitespace) :
    wsSplit (joinTabChars words) = words := by
  induction words with
  | nil => rfl
  | cons w ws ih =>
    obtain ⟨hne, hwf⟩ := h w (List.mem_cons_self w ws)
    cases ws with
    | nil =>
      show wsSplit (joinTabChars [w]) = [w]
      unfold wsSplit
      have : joinTabChars [w] = w ++ [] := by simp [joinTabChars]
      rw [this, wsSplitAux_word_chars w hwf [] []]
      unfold wsSplitAux
      rw [if_neg (by simpa using hne)]
      simp
    | cons w' ws' =>
      have hrest : ∀ v ∈ w' :: ws', v ≠ [] ∧ ∀ c ∈ v, ¬ c.isWhitespace :=
        fun v hv => h v (List.mem_cons_of_mem w hv)
      obtain ⟨hne', _⟩ := hrest w' (List.mem_cons_self w' ws')
      have hjoin : joinTabChars (w :: w' :: ws') =
          w ++ ('\t' :: joinTabChars (w' :: ws')) := rfl
      unfold wsSplit
      rw [hjoin, wsSplitAux_word_chars w hwf _ []]
      show wsSplitAux ('\t' :: joinTabChars (w' :: ws')) (w.reverse ++ []) = _
      unfold wsSplitAux
      rw [if_pos (by decide), if_neg (by simpa using hne)]
      have hwr : (w.reverse ++ []).reverse = w := by simp
      rw [hwr]
      have hih := ih hrest
      unfold wsSplit at hih
      rw [hih]

/-- A character list with non-whitespace first and last characters is
unchanged by stripping. -/
theorem stripChars_eq_self (cs : List Char)
    (h1 : ∀ c, cs.head? = some c → ¬ c.isWhitespace)
    (h2 : ∀ c, cs.getLast? = some c → ¬ c.isWhitespace) :
    ((cs.dropWhile Char.isWhitespace).reverse.dropWhile Char.isWhitespace).reverse = cs := by
  have hdrop : cs.dropWhile Char.isWhitespace = cs := by
    cases cs with
    | nil => rfl
    | cons c rest =>
      rw [List.dropWhile_cons]
      rw [if_neg (by simpa using h1 c rfl)]
  rw [hdrop]
  have hdrop2 : cs.reverse.dropWhile Char.isWhitespace = cs.reverse := by
    cases hrev : cs.reverse with
    | nil => rfl
    | cons c rest =>
      rw [List.dropWhile_cons]
      have : cs.getLast? = some c := by
        rw [← List.head?_reverse, hrev]
        rfl
      rw [if_neg (by simpa using h2 c this)]
  rw [hdrop2, List.reverse_reverse]

/-- The tab-join of non-empty whitespace-free words is non-empty and
starts with a non-whitespace character. -/
theorem joinTabChars_head_not_ws (words : List (List Char))
    (h : ∀ w ∈ words, w ≠ [] ∧ ∀ c ∈ w, ¬ c.isWhitespace) :
    ∀ c, (joinTabChars words).head? = some c → ¬ c.isWhitespace := by
  intro c hc
  cases words with
  | nil => simp [joinTabChars] at hc
  | cons w ws =>
    obtain ⟨hne, hwf⟩ := h w (List.mem_cons_self w ws)
    have hhead : (joinTabChars (w :: ws)).head? = w.head? := by
      cases ws with
      | nil => rfl
      | cons w' ws' =>
        show (w ++ '\t' :: joinTabChars (w' :: ws')).head? = w.head?
        exact List.head?_append_of_ne_nil _ hne
    rw [hhead] at hc
    exact hwf c (List.mem_of_mem_head? hc)

/-- The tab-join of non-empty whitespace-free words ends with a
non-whitespace character. -/
theorem joinTabChars_getLast_not_ws (words : List (List Char))
    (h : ∀ w ∈ words, w ≠ [] ∧ ∀ c ∈ w, ¬ c.isWhitespace) :
    ∀ c, (joinTabChars words).getLast? = some c → ¬ c.isWhitespace := by
  induction words with
  | nil => intro c hc; simp [joinTabChars] at hc
  | cons w ws ih =>
    intro c hc
    obtain ⟨hne, hwf⟩ := h w (List.mem_cons_self w ws)
    cases ws with
    | nil =>
      have hrev : w.reverse.head? = some c := by
        rw [List.head?_reverse]
        exact hc
      exact hwf c (List.mem_reverse.mp (List.mem_of_mem_head? hrev))
    | cons w' ws' =>
      have hrest : ∀ v ∈ w' :: ws', v ≠ [] ∧ ∀ d ∈ v, ¬ d.isWhitespace :=
        fun v hv => h v (List.mem_cons_of_mem w hv)
      obtain ⟨hne', _⟩ := hrest w' (List.mem_cons_self w' ws')
      have hjoin_ne : joinTabChars (w' :: ws') ≠ [] := by
        cases ws' with
        | nil => simpa [joinTabChars] using hne'
        | cons a b =>
          show w' ++ '\t' :: joinTabChars (a :: b) ≠ []
          simp
      have hlast : (joinTabChars (w :: w' :: ws')).getLast? =
          (joinTabChars (w' :: ws')).getLast? := by
        show (w ++ '\t' :: joinTabChars (w' :: ws')).getLast? = _
        rw [List.getLast?_append_of_ne_nil _ (by simp)]
        cases hj : joinTabChars (w' :: ws') with
        | nil => exact absurd hj hjoin_ne
        | cons a b => simp [List.getLast?_cons_cons]
      rw [hlast] at hc
      exact ih hrest c hc

/-! ### Decimal print/parse round-trip -/

/-- Reading back: `digitVal` inverts `Nat.digitChar` on decimal digits. -/
theorem digitVal_digitChar {d : Nat} (h : d < 10) :
    digitVal (Nat.digitChar d) = some d := by
  interval_cases d <;> decide

/-- Decimal digit characters are not whitespace. -/
theorem digitChar_not_ws {d : Nat} (h : d < 10) :
    ¬ (Nat.digitChar d).isWhitespace := by
  interval_cases d <;> decide

/-- Decimal digit characters are not sign characters. -/
theorem digitChar_ne_sign {d : Nat} (h : d < 10) :
    Nat.digitChar d ≠ '-' ∧ Nat.digitChar d ≠ '+' := by
  interval_cases d <;> decide

/-- The decimal printer never produces an empty digit list. -/
theorem natToDigits_ne_nil (n : Nat) : natToDigits n ≠ [] := by
  rw [natToDigits]
  split <;> simp

/-- Every character the decimal printer produces is a digit character. -/
theorem natToDigits_mem (n : Nat) : ∀ c ∈ natToDigits n, ∃ d, d < 10 ∧ c = Nat.digitChar d := by
  induction n using Nat.strong_induction_on with
  | _ n ih =>
    intro c hc
    rw [natToDigits] at hc
    by_cases h : n < 10
    · rw [if_pos h] at hc
      simp only [List.mem_singleton] at hc
      exact ⟨n, h, hc⟩
    · rw [if_neg h] at hc
      rcases List.mem_append.mp hc with hc | hc
      · exact ih (n / 10) (Nat.div_lt_self (by omega) (by omega)) c hc
      · simp only [List.mem_singleton] at hc
        exact ⟨n % 10, Nat.mod_lt n (by omega), hc⟩

/-- Reading a single digit character. -/
theorem digitsToNatAux_digitChar (d m : Nat) (h : d < 10) :
    digitsToNatAux [Nat.digitChar d] m = some (m * 10 + d) := by
  unfold digitsToNatAux
  rw [digitVal_digitChar h]
  rfl

/-- Reading a concatenation of digit lists composes the accumulators. -/
theorem digitsToNatAux_append (l1 l2 : List Char) : ∀ (acc : Nat),
    digitsToNatAux (l1 ++ l2) acc =
      (digitsToNatAux l1 acc).bind (fun m => digitsToNatAux l2 m) := by
  induction l1 with
  | nil => intro acc; rfl
  | cons c cs ih =>
    intro acc
    show digitsToNatAux (c :: (cs ++ l2)) acc = _
    cases hdv : digitVal c with
    | none => simp [digitsToNatAux, hdv]
    | some d =>
      simp only [digitsToNatAux, hdv]
      exact ih (acc * 10 + d)

/-- The accumulating reader applied to the printer's output. -/
theorem digitsToNatAux_natToDigits (n : Nat) : ∀ (acc : Nat),
    digitsToNatAux (natToDigits n) acc =
      some (acc * 10 ^ (natToDigits n).length + n) := by
  induction n using Nat.strong_induction_on with
  | _ n ih =>
    intro acc
    rw [natToDigits]
    by_cases h : n < 10
    · rw [if_pos h]
      show digitsToNatAux [Nat.digitChar n] acc = _
      unfold digitsToNatAux
      rw [digitVal_digitChar h]
      show some (acc * 10 + n) = some (acc * 10 ^ 1 + n)
      norm_num
    · rw [if_neg h]
      rw [digitsToNatAux_append, ih (n / 10) (Nat.div_lt_self (by omega) (by omega)) acc,
        Option.some_bind, digitsToNatAux_digitChar _ _ (Nat.mod_lt n (by omega))]
      congr 1
      rw [List.length_append, List.length_singleton, pow_succ]
      have h1 : (acc * 10 ^ (natToDigits (n / 10)).length + n / 10) * 10 + n % 10 =
          acc * (10 ^ (natToDigits (n / 10)).length * 10) + (n / 10 * 10 + n % 10) := by
        ring
      have h2 : n / 10 * 10 + n % 10 = n := by omega
      rw [h1, h2]

/-- Round-trip of the decimal reader over the printer. -/
theorem digitsToNat_natToDigits (n : Nat) : digitsToNat (natToDigits n) = some n := by
  cases hd : natToDigits n with
  | nil => exact absurd hd (natToDigits_ne_nil n)
  | cons c cs =>
    show digitsToNatAux (c :: cs) 0 = some n
    rw [← hd, digitsToNatAux_natToDigits]
    simp

/-- Evaluation of the integer parser on an explicit first character. -/
theorem pyParseInt_mk_cons (c : Char) (rest : List Char) :
    pyParseInt (String.mk (c :: rest)) =
      (if c = '-' then
        match digitsToNat rest with
        | some n => some (-(n : Int))
        | none => none
      else if c = '+' then
        match digitsToNat rest with
        | some n => some ((n : Int))
        | none => none
      else
        match digitsToNat (c :: rest) with
        | some n => some ((n : Int))
        | none => none) := rfl

/-- Python `int(str(i)) == i`: the integer printer/parser round-trip. -/
theorem pyParseInt_pyIntStr (i : Int) : pyParseInt (pyIntStr i) = some i := by
  cases i with
  | ofNat n =>
    show pyParseInt (String.mk (natToDigits n)) = some (n : Int)
    cases hd : natToDigits n with
    | nil => exact absurd hd (natToDigits_ne_nil n)
    | cons c cs =>
      obtain ⟨d, hd10, hcd⟩ := natToDigits_mem n c (hd ▸ List.mem_cons_self c cs)
      obtain ⟨hne1, hne2⟩ := digitChar_ne_sign hd10
      have hcne1 : c ≠ '-' := by rw [hcd]; exact hne1
      have hcne2 : c ≠ '+' := by rw [hcd]; exact hne2
      rw [pyParseInt_mk_cons, if_neg hcne1, if_neg hcne2, ← hd,
        digitsToNat_natToDigits]
  | negSucc m =>
    show pyParseInt (String.mk ('-' :: natToDigits (m + 1))) = some (Int.negSucc m)
    rw [pyParseInt_mk_cons, if_pos rfl, digitsToNat_natToDigits]
    show some (-((m + 1 : Nat) : Int)) = some (Int.negSucc m)
    congr 1

/-- The printed integer is a non-empty whitespace-free token. -/
theorem pyIntStr_clean (i : Int) :
    (pyIntStr i).data ≠ [] ∧ ∀ c ∈ (pyIntStr i).data, ¬ c.isWhitespace := by
  cases i with
  | ofNat n =>
    refine ⟨natToDigits_ne_nil n, ?_⟩
    intro c hc
    obtain ⟨d, hd10, hcd⟩ := natToDigits_mem n c hc
    rw [hcd]
    exact digitChar_not_ws hd10
  | negSucc m =>
    refine ⟨by simp [pyIntStr], ?_⟩
    intro c hc
    rcases List.mem_cons.mp hc with hc | hc
    · subst hc
      decide
    · obtain ⟨d, hd10, hcd⟩ := natToDigits_mem (m + 1) c hc
      rw [hcd]
      exact digitChar_not_ws hd10

/-- Every field produced by `str.split()` is a non-empty whitespace-free
token. -/
theorem pySplit_words (s : String) :
    ∀ p ∈ pySplit s, p.data ≠ [] ∧ ∀ c ∈ p.data, ¬ c.isWhitespace := by
  intro p hp
  obtain ⟨w, hw, hww⟩ := List.mem_map.mp hp
  have hprops := wsSplitAux_words s.data [] (by simp) w hw
  rw [← hww]
  exact hprops

/-- Splitting a tab-join of non-empty whitespace-free fields recovers
the fields. -/
theorem pySplit_tabJoin (parts : List String)
    (h : ∀ p ∈ parts, p.data ≠ [] ∧ ∀ c ∈ p.data, ¬ c.isWhitespace) :
    pySplit (tabJoin parts) = parts := by
  unfold pySplit tabJoin
  have hdata : (String.mk (joinTabChars (parts.map String.data))).data =
      joinTabChars (parts.map String.data) := rfl
  rw [hdata, wsSplit_joinTabChars (parts.map String.data) ?props]
  case props =>
    intro w hw
    obtain ⟨p, hp, hpw⟩ := List.mem_map.mp hw
    rw [← hpw]
    exact h p hp
  rw [List.map_map]
  have hcomp : (String.mk ∘ String.data) = id := funext fun s => rfl
  rw [hcomp, List.map_id]

/-- A tab-join of non-empty whitespace-free fields is unchanged by
stripping. -/
theorem pyStrip_tabJoin (parts : List String)
    (h : ∀ p ∈ parts, p.data ≠ [] ∧ ∀ c ∈ p.data, ¬ c.isWhitespace) :
    pyStrip (tabJoin parts) = tabJoin parts := by
  unfold pyStrip tabJoin
  have hwords : ∀ w ∈ parts.map String.data, w ≠ [] ∧ ∀ c ∈ w, ¬ c.isWhitespace := by
    intro w hw
    obtain ⟨p, hp, hpw⟩ := List.mem_map.mp hw
    rw [← hpw]
    exact h p hp
  congr 1
  exact stripChars_eq_self _ (joinTabChars_head_not_ws _ hwords)
    (joinTabChars_getLast_not_ws _ hwords)

/-! ### Case analysis of the per-line rewriter -/

/-- Exhaustive behaviour of `update_line`: an empty stripped line is
dropped silently; a malformed line is kept as its stripped text; a
numeric line is dropped (counted removed) when its label equals the
deleted index, tab-joined with the label decremented (counted shifted)
when greater, tab-joined unchanged when smaller. -/
theorem update_line_cases (k : Int) (raw : String) :
    (pyStrip raw = "" ∧ update_line k raw = (none, 0, 0)) ∨
    (pyStrip raw ≠ "" ∧ parsedLabel raw = none ∧
      update_line k raw = (some (pyStrip raw), 0, 0)) ∨
    (∃ j, parsedLabel raw = some j ∧
      ((j = k ∧ update_line k raw = (none, 1, 0)) ∨
       (k < j ∧ update_line k raw =
         (some (tabJoin ((pySplit (pyStrip raw)).set 0 (pyIntStr (j - 1)))), 0, 1)) ∨
       (j < k ∧ update_line k raw =
         (some (tabJoin (pySplit (pyStrip raw))), 0, 0)))) := by
  unfold update_line parsedLabel
  by_cases h0 : pyStrip raw = ""
  · left
    rw [if_pos h0]
    exact ⟨h0, rfl⟩
  · rw [if_neg h0]
    by_cases h5 : 5 ≤ (pySplit (pyStrip raw)).length
    · rw [if_pos h5]
      cases hp : pyParseInt (pySplit (pyStrip raw)).headI with
      | none =>
        right; left
        dsimp only
        rw [if_pos h5]
        exact ⟨h0, hp, rfl⟩
      | some j =>
        right; right
        dsimp only
        refine ⟨j, by rw [if_pos h5]; exact hp, ?_⟩
        by_cases hjk : j = k
        · left
          rw [if_pos hjk]
          exact ⟨hjk, rfl⟩
        · rw [if_neg hjk]
          by_cases hkj : k < j
          · right; left
            rw [if_pos hkj]
            exact ⟨hkj, rfl⟩
          · right; right
            rw [if_neg hkj]
            exact ⟨by omega, rfl⟩
    · right; left
      rw [if_neg h5, if_neg h5]
      exact ⟨h0, rfl, rfl⟩

/-- Re-parsing a tab-joined numeric line whose first field was replaced
by a printed integer yields that integer. -/
theorem parsedLabel_tabJoin_set (raw : String) (m : Int)
    (h5 : 5 ≤ (pySplit (pyStrip raw)).length) :
    parsedLabel (tabJoin ((pySplit (pyStrip raw)).set 0 (pyIntStr m))) = some m := by
  have hprops : ∀ p ∈ (pySplit (pyStrip raw)).set 0 (pyIntStr m),
      p.data ≠ [] ∧ ∀ c ∈ p.data, ¬ c.isWhitespace := by
    intro p hp
    rcases List.mem_or_eq_of_mem_set hp with h | h
    · exact pySplit_words _ p h
    · rw [h]
      exact pyIntStr_clean m
  unfold parsedLabel
  rw [pyStrip_tabJoin _ hprops, pySplit_tabJoin _ hprops,
    if_pos (by rw [List.length_set]; exact h5)]
  have hne : pySplit (pyStrip raw) ≠ [] := by
    intro h
    rw [h] at h5
    simp at h5
  obtain ⟨p0, rest, hcons⟩ := List.exists_cons_of_ne_nil hne
  rw [hcons, List.set_cons_zero]
  show pyParseInt (pyIntStr m) = some m
  exact pyParseInt_pyIntStr m

/-- Re-parsing a tab-joined numeric line with unchanged fields yields
the original label. -/
theorem parsedLabel_tabJoin_same (raw : String) (j : Int)
    (hj : parsedLabel raw = some j) :
    parsedLabel (tabJoin (pySplit (pyStrip raw))) = some j := by
  unfold parsedLabel at hj ⊢
  by_cases h5 : 5 ≤ (pySplit (pyStrip raw)).length
  · rw [if_pos h5] at hj
    have hprops : ∀ p ∈ pySplit (pyStrip raw),
        p.data ≠ [] ∧ ∀ c ∈ p.data, ¬ c.isWhitespace :=
      fun p hp => pySplit_words (pyStrip raw) p hp
    rw [pyStrip_tabJoin _ hprops, pySplit_tabJoin _ hprops, if_pos h5]
    exact hj
  · rw [if_neg h5] at hj
    exact absurd hj (by simp)

/-- A line that strips to empty parses to no label. -/
theorem parsedLabel_of_strip_empty (raw : String) (h0 : pyStrip raw = "") :
    parsedLabel raw = none := by
  unfold parsedLabel
  rw [h0]
  rfl

/-- A line with a parsed label has at least five fields. -/
theorem parsedLabel_some_length {raw : String} {j : Int}
    (hj : parsedLabel raw = some j) : 5 ≤ (pySplit (pyStrip raw)).length := by
  unfold parsedLabel at hj
  by_cases h5 : 5 ≤ (pySplit (pyStrip raw)).length
  · exact h5
  · rw [if_neg h5] at hj
    exact absurd hj (by simp)

/-- The removed/shifted counter contribution of a single line. -/
theorem update_line_counts (k : Int) (raw : String) :
    (update_line k raw).2.1 = (if parsedLabel raw = some k then 1 else 0) ∧
    (update_line k raw).2.2 =
      (if ((parsedLabel raw).any fun j => decide (k < j)) then 1 else 0) := by
  rcases update_line_cases k raw with ⟨h0, hu⟩ | ⟨_, hnone, hu⟩ | ⟨j, hj, hc⟩
  · have hnone := parsedLabel_of_strip_empty raw h0
    rw [hu, hnone]
    simp
  · rw [hu, hnone]
    simp
  · rcases hc with ⟨hjk, hu⟩ | ⟨hkj, hu⟩ | ⟨hjk, hu⟩
    · subst hjk
      rw [hu, hj]
      simp
    · rw [hu, hj]
      constructor
      · simp only
        rw [if_neg (by simp; omega)]
      · simp only [Option.any_some]
        rw [if_pos (by simpa using hkj)]
    · rw [hu, hj]
      constructor
      · simp only
        rw [if_neg (by simp; omega)]
      · simp only [Option.any_some]
        rw [if_neg (by simpa using (by omega : ¬ k < j))]

/-- Characterization: `update_single_annotation_file` keeps exactly the per-line survivors
in order and counts removed/shifted lines. -/
theorem update_single_annotation_file_eq (k : Int) (lines : List String) :
    update_single_annotation_file k lines =
      (lines.filterMap fun l => (update_line k l).1,
       lines.countP fun l => decide (parsedLabel l = some k),
       lines.countP fun l => (parsedLabel l).any fun j => decide (k < j)) := by
  induction lines with
  | nil => rfl
  | cons l rest ih =>
    obtain ⟨hr, hs⟩ := update_line_counts k l
    show (match (update_line k l).1 with
        | some t => t :: (update_single_annotation_file k rest).1
        | none => (update_single_annotation_file k rest).1,
      (update_line k l).2.1 + (update_single_annotation_file k rest).2.1,
      (update_line k l).2.2 + (update_single_annotation_file k rest).2.2) = _
    rw [ih, List.filterMap_cons, List.countP_cons, List.countP_cons, hr, hs]
    cases hl : (update_line k l).1 with
    | none => simp [Nat.add_comm]
    | some t => simp [Nat.add_comm]

/-- Characterization: `update_annotations_after_label_delete` rewrites each file with
`update_single_annotation_file` and sums the per-file counters. -/
theorem update_annotations_after_label_delete_eq (k : Int) (files : List (List String)) :
    update_annotations_after_label_delete k files =
      (files.map fun f => (update_single_annotation_file k f).1,
       (files.map fun f => (update_single_annotation_file k f).2.1).sum,
       (files.map fun f => (update_single_annotation_file k f).2.2).sum) := by
  induction files with
  | nil => rfl
  | cons f rest ih =>
    show ((update_single_annotation_file k f).1 ::
        (update_annotations_after_label_delete k rest).1,
      (update_single_annotation_file k f).2.1 +
        (update_annotations_after_label_delete k rest).2.1,
      (update_single_annotation_file k f).2.2 +
        (update_annotations_after_label_delete k rest).2.2) = _
    rw [ih]
    simp

/-- C3: the label-delete rewrite drops every numeric line whose label
equals the deleted index, rewrites every numeric line with a greater
label to carry label `j-1`, keeps the label of every numeric line with a
smaller label, preserves line order within each file (the output is an
in-order per-line `filterMap`), and returns the removed and shifted
counts summed over all files. -/
theorem delete_reindex_per_line (k : Int) (files : List (List String)) :
    ((update_annotations_after_label_delete k files).1 =
      files.map fun f => (update_single_annotation_file k f).1) ∧
    ((update_annotations_after_label_delete k files).2.1 =
      (files.map fun f => (update_single_annotation_file k f).2.1).sum) ∧
    ((update_annotations_after_label_delete k files).2.2 =
      (files.map fun f => (update_single_annotation_file k f).2.2).sum) ∧
    (∀ lines, (update_single_annotation_file k lines).1 =
      lines.filterMap fun l => (update_line k l).1) ∧
    (∀ lines, (update_single_annotation_file k lines).2.1 =
      lines.countP fun l => decide (parsedLabel l = some k)) ∧
    (∀ lines, (update_single_annotation_file k lines).2.2 =
      lines.countP fun l => (parsedLabel l).any fun j => decide (k < j)) ∧
    (∀ (raw : String) (j : Int), parsedLabel raw = some j →
      (j = k → (update_line k raw).1 = none) ∧
      (k < j → ∃ t, (update_line k raw).1 = some t ∧ parsedLabel t = some (j - 1)) ∧
      (j < k → ∃ t, (update_line k raw).1 = some t ∧ parsedLabel t = some j)) := by
  refine ⟨by rw [update_annotations_after_label_delete_eq],
    by rw [update_annotations_after_label_delete_eq],
    by rw [update_annotations_after_label_delete_eq],
    fun lines => by rw [update_single_annotation_file_eq],
    fun lines => by rw [update_single_annotation_file_eq],
    fun lines => by rw [update_single_annotation_file_eq],
    ?_⟩
  intro raw j hj
  rcases update_line_cases k raw with ⟨h0, _⟩ | ⟨_, hnone, _⟩ | ⟨j', hj', hc⟩
  · rw [parsedLabel_of_strip_empty raw h0] at hj
    exact absurd hj (by simp)
  · rw [hnone] at hj
    exact absurd hj (by simp)
  · rw [hj] at hj'
    have hjj : j' = j := by
      injection hj' with h
      exact h.symm
    subst hjj
    rcases hc with ⟨hjk, hu⟩ | ⟨hkj, hu⟩ | ⟨hjk, hu⟩
    · exact ⟨fun _ => by rw [hu], fun h => absurd h (by omega),
        fun h => absurd h (by omega)⟩
    · refine ⟨fun h => absurd h (by omega), ?_, fun h => absurd h (by omega)⟩
      intro _
      exact ⟨_, by rw [hu],
        parsedLabel_tabJoin_set raw (j' - 1) (parsedLabel_some_length hj)⟩
    · refine ⟨fun h => absurd h (by omega), fun h => absurd h (by omega), ?_⟩
      intro _
      exact ⟨_, by rw [hu], parsedLabel_tabJoin_same raw j' hj⟩

/-- Witness for C3 at a concrete shifted line: deleting label 3 rewrites
a line with label 7 to label 6. -/
theorem delete_reindex_per_line_witness :
    parsedLabel "7 0.1 0.2 0.3 0.4" = some 7 ∧ (3 : Int) < 7 ∧
    (∃ t, (update_line 3 "7 0.1 0.2 0.3 0.4").1 = some t ∧
      parsedLabel t = some (7 - 1)) :=
  ⟨by decide, by decide,
   ((delete_reindex_per_line 3 []).2.2.2.2.2.2 "7 0.1 0.2 0.3 0.4" 7
     (by decide)).2.1 (by decide)⟩

/-- C4 counterexample: in the file whose raw lines are `""` and `" a "`
(both malformed in the claim's sense), the rewrite outputs the single
line `"a"`: the empty line is not preserved at all, and the malformed
line `" a "` is written back stripped, not character for character. -/
theorem malformed_preservation_counterexample :
    update_single_annotation_file 0 ["", " a "] = (["a"], 0, 0) ∧
    " a " ≠ "a" ∧ "" ∉ ["a"] := by
  decide

/-- C4 (amended): every malformed line that is non-empty after stripping
is written back as exactly its whitespace-stripped text and appears in
the rewritten file; empty and whitespace-only lines are dropped. -/
theorem malformed_lines_kept_stripped (k : Int) (lines : List String) (raw : String)
    (hmem : raw ∈ lines) (hne : pyStrip raw ≠ "") (hmal : parsedLabel raw = none) :
    (update_line k raw).1 = some (pyStrip raw) ∧
    pyStrip raw ∈ (update_single_annotation_file k lines).1 := by
  have hu : update_line k raw = (some (pyStrip raw), 0, 0) := by
    rcases update_line_cases k raw with ⟨h0, _⟩ | ⟨_, _, hu⟩ | ⟨j, hj, _⟩
    · exact absurd h0 hne
    · exact hu
    · rw [hj] at hmal
      exact absurd hmal (by simp)
  refine ⟨by rw [hu], ?_⟩
  rw [update_single_annotation_file_eq]
  exact List.mem_filterMap.mpr ⟨raw, hmem, by rw [hu]⟩

/-- Witness for C4 (amended) at a malformed two-field line. -/
theorem malformed_lines_kept_stripped_witness :
    ("bad line" ∈ ["bad line", "0 0.1 0.1 0.1 0.1"] ∧
      pyStrip "bad line" ≠ "" ∧ parsedLabel "bad line" = none) ∧
    ((update_line 2 "bad line").1 = some (pyStrip "bad line") ∧
      pyStrip "bad line" ∈
        (update_single_annotation_file 2 ["bad line", "0 0.1 0.1 0.1 0.1"]).1) :=
  ⟨⟨by decide, by decide, by decide⟩,
   malformed_lines_kept_stripped 2 ["bad line", "0 0.1 0.1 0.1 0.1"] "bad line"
     (by decide) (by decide) (by decide)⟩

/-! ### Round-trip accuracy of the annotation codec -/

/-- Six-decimal formatting moves a value by at most half an ulp. -/
theorem abs_round6_sub (q : ℚ) : |round6 q - q| ≤ 1 / 2000000 := by
  unfold round6
  have h : |q * 1000000 - (round (q * 1000000) : ℚ)| ≤ 1 / 2 := abs_sub_round _
  rw [abs_sub_comm] at h
  have heq : ((round (q * 1000000) : ℤ) : ℚ) / 1000000 - q =
      (((round (q * 1000000) : ℤ) : ℚ) - q * 1000000) / 1000000 := by
    ring
  rw [heq, abs_div, abs_of_pos (by norm_num : (0 : ℚ) < 1000000)]
  calc |((round (q * 1000000) : ℤ) : ℚ) - q * 1000000| / 1000000
      ≤ (1 / 2) / 1000000 :=
        (div_le_div_iff_of_pos_right (by norm_num)).mpr h
    _ = 1 / 2000000 := by norm_num

/-- Truncation toward zero of a rational within `3/4` of a non-negative
integer lands within one of that integer. -/
theorem pyTrunc_close (n : Int) (q : ℚ) (hn : 0 ≤ n) (h : |q - n| ≤ 3 / 4) :
    (pyTrunc q - n).natAbs ≤ 1 := by
  obtain ⟨hl, hr⟩ := abs_le.mp h
  have h1 : (n : ℚ) - 3 / 4 ≤ q := by linarith
  have h2 : q ≤ (n : ℚ) + 3 / 4 := by linarith
  unfold pyTrunc
  by_cases hq : q < 0
  · rw [if_pos hq]
    have hn0 : n = 0 := by
      have hcast : (n : ℚ) < 1 := by linarith
      have : n < 1 := by exact_mod_cast hcast
      omega
    subst hn0
    have hc1 : ⌈q⌉ ≤ 0 := Int.ceil_le.mpr (by push_cast; linarith)
    have hc2 : 0 ≤ ⌈q⌉ := by
      have : (-1 : ℚ) < q := by push_cast at h1; linarith
      have := Int.le_ceil q
      have hgt : (-1 : ℤ) < ⌈q⌉ := by
        by_contra hcon
        push_neg at hcon
        have : (⌈q⌉ : ℚ) ≤ -1 := by exact_mod_cast hcon
        linarith [Int.le_ceil q]
      omega
    omega
  · rw [if_neg hq]
    have hf1 : ⌊q⌋ ≤ n := by
      have hle : ⌊q⌋ ≤ ⌊(n : ℚ) + 3 / 4⌋ := Int.floor_le_floor h2
      rwa [show ⌊(n : ℚ) + 3 / 4⌋ = n from by
        rw [Int.floor_int_add]
        norm_num] at hle
    have hf2 : n - 1 ≤ ⌊q⌋ := by
      have hle : ⌊(n : ℚ) - 3 / 4⌋ ≤ ⌊q⌋ := Int.floor_le_floor h1
      rwa [show ⌊(n : ℚ) - 3 / 4⌋ = n - 1 from by
        rw [show (n : ℚ) - 3 / 4 = (n : ℚ) + (-3 / 4) from by ring, Int.floor_int_add]
        norm_num
        omega] at hle
    omega

/-- Deviation of the denormalized top-left coordinate after one
save/load cycle: at most `3/4` of a pixel for dimensions up to `10⁶`. -/
theorem saveload_coord_dev (x w W : Int) (hW0 : 0 < W) (hW : W ≤ 1000000) :
    |round6 (((x : ℚ) + (w : ℚ) / 2) / (W : ℚ)) * (W : ℚ) -
      round6 ((w : ℚ) / (W : ℚ)) * (W : ℚ) / 2 - (x : ℚ)| ≤ 3 / 4 := by
  have hWne : ((W : ℚ)) ≠ 0 := by
    have : (0 : ℚ) < (W : ℚ) := by exact_mod_cast hW0
    exact this.ne'
  have hWq : ((W : ℚ)) ≤ 1000000 := by exact_mod_cast hW
  have hWpos : (0 : ℚ) < (W : ℚ) := by exact_mod_cast hW0
  set u : ℚ := ((x : ℚ) + (w : ℚ) / 2) / (W : ℚ) with hu
  set v : ℚ := (w : ℚ) / (W : ℚ) with hv
  have hA : |round6 u - u| ≤ 1 / 2000000 := abs_round6_sub u
  have hB : |round6 v - v| ≤ 1 / 2000000 := abs_round6_sub v
  have huW : u * (W : ℚ) = (x : ℚ) + (w : ℚ) / 2 := div_mul_cancel₀ _ hWne
  have hvW : v * (W : ℚ) = (w : ℚ) := div_mul_cancel₀ _ hWne
  have hexpr : round6 u * (W : ℚ) - round6 v * (W : ℚ) / 2 - (x : ℚ) =
      (round6 u - u) * (W : ℚ) - (round6 v - v) * (W : ℚ) / 2 := by
    have : round6 u * (W : ℚ) - round6 v * (W : ℚ) / 2 - (x : ℚ) =
        (round6 u - u) * (W : ℚ) - (round6 v - v) * (W : ℚ) / 2 +
          (u * (W : ℚ) - v * (W : ℚ) / 2 - (x : ℚ)) := by
      ring
    rw [this, huW, hvW]
    ring_nf
  rw [hexpr]
  have habs1 : |(round6 u - u) * (W : ℚ)| ≤ 1 / 2 := by
    rw [abs_mul, abs_of_pos hWpos]
    calc |round6 u - u| * (W : ℚ) ≤ (1 / 2000000) * 1000000 := by
          apply mul_le_mul hA hWq (le_of_lt hWpos) (by norm_num)
      _ = 1 / 2 := by norm_num
  have habs2 : |(round6 v - v) * (W : ℚ) / 2| ≤ 1 / 4 := by
    rw [abs_div, abs_mul, abs_of_pos hWpos, abs_of_pos (by norm_num : (0 : ℚ) < 2)]
    calc |round6 v - v| * (W : ℚ) / 2 ≤ (1 / 2000000) * 1000000 / 2 := by
          apply div_le_div_of_nonneg_right ?_ (by norm_num)
          · exact mul_le_mul hB hWq (le_of_lt hWpos) (by norm_num)
      _ = 1 / 4 := by norm_num
  calc |(round6 u - u) * (W : ℚ) - (round6 v - v) * (W : ℚ) / 2|
      ≤ |(round6 u - u) * (W : ℚ)| + |(round6 v - v) * (W : ℚ) / 2| := by
        rw [sub_eq_add_neg]
        exact (abs_add _ _).trans (by rw [abs_neg])
    _ ≤ 1 / 2 + 1 / 4 := add_le_add habs1 habs2
    _ ≤ 3 / 4 := by norm_num

/-- Deviation of the denormalized size after one save/load cycle: at
most half a pixel for dimensions up to `10⁶`. -/
theorem saveload_size_dev (w W : Int) (hW0 : 0 < W) (hW : W ≤ 1000000) :
    |round6 ((w : ℚ) / (W : ℚ)) * (W : ℚ) - (w : ℚ)| ≤ 3 / 4 := by
  have hWne : ((W : ℚ)) ≠ 0 := by
    have : (0 : ℚ) < (W : ℚ) := by exact_mod_cast hW0
    exact this.ne'
  have hWq : ((W : ℚ)) ≤ 1000000 := by exact_mod_cast hW
  have hWpos : (0 : ℚ) < (W : ℚ) := by exact_mod_cast hW0
  have hvW : (w : ℚ) / (W : ℚ) * (W : ℚ) = (w : ℚ) := div_mul_cancel₀ _ hWne
  have hexpr : round6 ((w : ℚ) / (W : ℚ)) * (W : ℚ) - (w : ℚ) =
      (round6 ((w : ℚ) / (W : ℚ)) - (w : ℚ) / (W : ℚ)) * (W : ℚ) := by
    rw [sub_mul, hvW]
  rw [hexpr, abs_mul, abs_of_pos hWpos]
  calc |round6 ((w : ℚ) / (W : ℚ)) - (w : ℚ) / (W : ℚ)| * (W : ℚ)
      ≤ (1 / 2000000) * 1000000 :=
        mul_le_mul (abs_round6_sub _) hWq (le_of_lt hWpos) (by norm_num)
    _ ≤ 3 / 4 := by norm_num

/-- C7 counterexample: the unqualified 1-pixel round-trip bound fails
for large dimensions.  On a 4000000×4000000 image, the box
`{x:4, y:4, width:3, height:3}` — strictly inside the image with
positive size — saves to the 6-decimal records `x_center = 0.000001`,
`size = 0.000001` and loads back as `{x:2, y:2, width:4, height:4}`:
the x (and y) coordinate moves by 2 pixels. -/
theorem roundtrip_counterexample :
    ((0 : Int) ≤ 4 ∧ (4 : Int) + 3 ≤ 4000000 ∧ (0 : Int) < 3 ∧ (0 : Int) < 4000000) ∧
    loadBox 4000000 4000000 (saveBox 4000000 4000000 ⟨4, 4, 3, 3, 0, 0, false⟩) =
      ⟨2, 2, 4, 4, 0, 0, false⟩ ∧
    ((2 : Int) - 4).natAbs = 2 := by
  refine ⟨by decide, ?_, by decide⟩
  simp only [loadBox, saveBox, add_box_from_yolo, pyTrunc, round6]
  norm_num [round_eq]

/-- C7 (amended): for images with both dimensions at most `10⁶`, saving
a box collection in the 6-decimal normalized format and loading it back
moves each of x, y, width and height by at most one pixel, for every box
fully inside `[0,W)×[0,H)` with positive size. -/
theorem roundtrip_within_one_pixel (b : BoundingBox) (W H : Int)
    (hW0 : 0 < W) (hW : W ≤ 1000000) (hH0 : 0 < H) (hH : H ≤ 1000000)
    (hx0 : 0 ≤ b.x) (hxW : b.x + b.width ≤ W)
    (hy0 : 0 ≤ b.y) (hyH : b.y + b.height ≤ H)
    (hw : 0 < b.width) (hh : 0 < b.height) :
    ((loadBox W H (saveBox W H b)).x - b.x).natAbs ≤ 1 ∧
    ((loadBox W H (saveBox W H b)).y - b.y).natAbs ≤ 1 ∧
    ((loadBox W H (saveBox W H b)).width - b.width).natAbs ≤ 1 ∧
    ((loadBox W H (saveBox W H b)).height - b.height).natAbs ≤ 1 := by
  refine ⟨?_, ?_, ?_, ?_⟩
  · show (pyTrunc (round6 (((b.x : ℚ) + (b.width : ℚ) / 2) / (W : ℚ)) * (W : ℚ) -
        round6 ((b.width : ℚ) / (W : ℚ)) * (W : ℚ) / 2) - b.x).natAbs ≤ 1
    exact pyTrunc_close b.x _ hx0 (saveload_coord_dev b.x b.width W hW0 hW)
  · show (pyTrunc (round6 (((b.y : ℚ) + (b.height : ℚ) / 2) / (H : ℚ)) * (H : ℚ) -
        round6 ((b.height : ℚ) / (H : ℚ)) * (H : ℚ) / 2) - b.y).natAbs ≤ 1
    exact pyTrunc_close b.y _ hy0 (saveload_coord_dev b.y b.height H hH0 hH)
  · show (pyTrunc (round6 ((b.width : ℚ) / (W : ℚ)) * (W : ℚ)) - b.width).natAbs ≤ 1
    exact pyTrunc_close b.width _ (le_of_lt hw) (saveload_size_dev b.width W hW0 hW)
  · show (pyTrunc (round6 ((b.height : ℚ) / (H : ℚ)) * (H : ℚ)) - b.height).natAbs ≤ 1
    exact pyTrunc_close b.height _ (le_of_lt hh) (saveload_size_dev b.height H hH0 hH)

/-- Witness for C7 (amended) on a 100×200 image. -/
theorem roundtrip_within_one_pixel_witness :
    ((0 : Int) < 100 ∧ (100 : Int) ≤ 1000000 ∧ (0 : Int) < 200 ∧
     (200 : Int) ≤ 1000000 ∧ (0 : Int) ≤ 10 ∧ (10 : Int) + 30 ≤ 100 ∧
     (0 : Int) ≤ 20 ∧ (20 : Int) + 40 ≤ 200 ∧ (0 : Int) < 30 ∧ (0 : Int) < 40) ∧
    (((loadBox 100 200 (saveBox 100 200 ⟨10, 20, 30, 40, 1, 0, false⟩)).x - 10).natAbs ≤ 1 ∧
     ((loadBox 100 200 (saveBox 100 200 ⟨10, 20, 30, 40, 1, 0, false⟩)).y - 20).natAbs ≤ 1 ∧
     ((loadBox 100 200 (saveBox 100 200 ⟨10, 20, 30, 40, 1, 0, false⟩)).width - 30).natAbs ≤ 1 ∧
     ((loadBox 100 200 (saveBox 100 200 ⟨10, 20, 30, 40, 1, 0, false⟩)).height - 40).natAbs ≤ 1) :=
  ⟨by decide,
   roundtrip_within_one_pixel ⟨10, 20, 30, 40, 1, 0, false⟩ 100 200
     (by decide) (by decide) (by decide) (by decide) (by decide) (by decide)
     (by decide) (by decide) (by decide) (by decide)⟩

end VirOlo
